import Mathlib

/-!
Verification model of the EDS → CARv1 write pipeline (`share/eds/eds.go`).

Shares are modelled as byte lists (`List ℕ`), the extended data square as a
record exposing `Width`, `GetCell`, `RowRoots` and `ColRoots` (the interface
the Go code uses via `rsmt2d.ExtendedDataSquare`).  Go slices that the code
allocates fresh are modelled with capacity equal to length; the one slicing
operation that can panic (`share[:8]` when the share is shorter than 8
bytes) and the `panic("invalid quadrant")` branch are modelled as a
`GoPanic` outcome.  External collaborators (the erasure codec, the NMT
hashes, the in-memory blockstore) are parameters of the model; code of the
repository that is not part of the verified file (`share.ExtractEDS`,
`ipld.CidFromNamespacedSha256`) is modelled from the specification, as
noted on the individual definitions.
-/

namespace EdsCar

/-- The matrix interface used by the writer: `Width`, `GetCell`, `RowRoots`,
`ColRoots` of an `rsmt2d.ExtendedDataSquare`. -/
structure ExtendedDataSquare where
  width : ℕ
  cells : ℕ → ℕ → List ℕ
  rowRoots : List (List ℕ)
  colRoots : List (List ℕ)

/-- Modelled from the spec: `appconsts.ParitySharesNamespaceID`, the fixed,
protocol-reserved parity-namespace constant (an 8-byte namespace identifier);
its exact byte values are external to this repository. -/
def ParitySharesNamespaceID : List ℕ := List.replicate 8 255

/-- The two run-time panics reachable from `prependNamespace`: slicing
`share[:8]` on a share with capacity below 8, and the explicit
`panic("invalid quadrant")` default branch. -/
inductive GoPanic where
  | sliceBounds
  | invalidQuadrant
deriving DecidableEq, Repr

/-- Translation of `prependNamespace` (eds.go:192-201).  Quadrant 0 returns
`append(share[:8], share...)`, i.e. the share's own leading 8 bytes followed
by the whole share; quadrants 1-3 prepend the parity namespace constant; any
other quadrant hits `panic("invalid quadrant")`.  Fresh slices have capacity
equal to length, so `share[:8]` panics when the share is shorter than 8. -/
def prependNamespace (quadrant : ℕ) (share : List ℕ) : Except GoPanic (List ℕ) :=
  match quadrant with
  | 0 => if 8 ≤ share.length then .ok (share.take 8 ++ share) else .error .sliceBounds
  | 1 => .ok (ParitySharesNamespaceID ++ share)
  | 2 => .ok (ParitySharesNamespaceID ++ share)
  | 3 => .ok (ParitySharesNamespaceID ++ share)
  | _ => .error .invalidQuadrant

/-- Translation of `getQuadrantCells` (eds.go:180-188): the four cells with
inner-quadrant coordinates `(i,j)`, one per quadrant. -/
def getQuadrantCells (eds : ExtendedDataSquare) (i j : ℕ) : List (List ℕ) :=
  let quadrantWidth := eds.width / 2
  [eds.cells i j,
   eds.cells i (j + quadrantWidth),
   eds.cells (i + quadrantWidth) j,
   eds.cells (i + quadrantWidth) (j + quadrantWidth)]

/-- Body of the innermost loop of `quadrantOrder` (eds.go:170-173):
`shares[quadrant*quadrantSize+innerOffset] = prependNamespace(quadrant, cells[quadrant])`
with `innerOffset = i*quadrantWidth + j`. -/
def quadStep (eds : ExtendedDataSquare) (quadrantSize quadrantWidth i j : ℕ)
    (shares : List (List ℕ)) (quadrant : ℕ) : Except GoPanic (List (List ℕ)) :=
  match prependNamespace quadrant ((getQuadrantCells eds i j).getD quadrant []) with
  | .error p => .error p
  | .ok tagged => .ok (shares.set (quadrant * quadrantSize + (i * quadrantWidth + j)) tagged)

/-- Translation of `quadrantOrder` (eds.go:161-177): allocate `width²` empty
slots, then for every `i, j < quadrantWidth` and every `quadrant < 4` store
the tagged cell at `quadrant*quadrantSize + (i*quadrantWidth + j)`. -/
def quadrantOrder (eds : ExtendedDataSquare) : Except GoPanic (List (List ℕ)) :=
  let size := eds.width * eds.width
  let quadrantWidth := eds.width / 2
  let quadrantSize := quadrantWidth * quadrantWidth
  (List.range quadrantWidth).foldlM
    (fun shares i =>
      (List.range quadrantWidth).foldlM
        (fun shares j =>
          (List.range 4).foldlM (quadStep eds quadrantSize quadrantWidth i j) shares)
        shares)
    (List.replicate size [])

/-- The value `prependNamespace` returns for a valid quadrant (the pure
content of the tagged share, used to state the layout theorems). -/
def tagShare (quadrant : ℕ) (share : List ℕ) : List ℕ :=
  if quadrant = 0 then share.take 8 ++ share else ParitySharesNamespaceID ++ share

/-- Sequence of `slice[index] = value` writes applied left to right, the
store shape of `quadrantOrder`'s loop nest. -/
def applyWrites (ws : List (ℕ × List ℕ)) (s : List (List ℕ)) : List (List ℕ) :=
  ws.foldl (fun acc w => acc.set w.1 w.2) s

/-- The full list of (position, tagged share) writes `quadrantOrder`
performs, in loop order. -/
def quadrantWrites (eds : ExtendedDataSquare) : List (ℕ × List ℕ) :=
  (List.range (eds.width / 2)).flatMap (fun i =>
    (List.range (eds.width / 2)).flatMap (fun j =>
      (List.range 4).map (fun q =>
        (q * ((eds.width / 2) * (eds.width / 2)) + (i * (eds.width / 2) + j),
         tagShare q ((getQuadrantCells eds i j).getD q [])))))

/-- Observable actions of one `WriteEDS` call, in program order: the
non-sink steps of `initializeWriter` (extraction, reimport, root
computation, batch commit) and the three kinds of records the call
produces (the CARv1 header, leaf blocks, proof blocks) plus the
blockstore reads made while emitting proofs. -/
inductive Event where
  | extractShares
  | importSquare
  | computeRoots
  | commitBatch
  | headerWrite (version : ℕ) (roots : List (List ℕ))
  | leafWrite (cid : List ℕ) (bytes : List ℕ)
  | storeRead (cid : List ℕ)
  | proofWrite (cid : List ℕ) (bytes : List ℕ)
deriving DecidableEq, Repr

/-- Whether the event writes bytes to the caller's sink. -/
def Event.isSinkWrite : Event → Bool
  | .headerWrite _ _ => true
  | .leafWrite _ _ => true
  | .proofWrite _ _ => true
  | _ => false

/-- Whether the event is a CARv1 header record. -/
def Event.isHeaderWrite : Event → Bool
  | .headerWrite _ _ => true
  | _ => false

/-- Whether the event is a leaf (share) record. -/
def Event.isLeafWrite : Event → Bool
  | .leafWrite _ _ => true
  | _ => false

/-- Whether the event belongs to proof emission: a read of the inner-node
cache or a proof record. -/
def Event.isProofPhase : Event → Bool
  | .storeRead _ => true
  | .proofWrite _ _ => true
  | _ => false

/-- The event sequence of a successful `initializeWriter`: extraction,
reimport, root computation, batch commit, in that order. -/
def initTrace : List Event :=
  [.extractShares, .importSquare, .computeRoots, .commitBatch]

/-- A Go error as produced by nested `fmt.Errorf("...: %w", err)` wrapping:
the wrap messages, outermost first, around the underlying error `base`
(which `errors.Is` still sees through the wrapping). -/
structure WrappedError where
  msgs : List String
  base : String
deriving DecidableEq, Repr

/-- Outcome of a pipeline step: success, an error value, or a run-time
panic (which no `fmt.Errorf` annotation applies to). -/
inductive Failure where
  | panicked (p : GoPanic)
  | errored (e : WrappedError)
deriving DecidableEq, Repr

/-- One more layer of `fmt.Errorf("msg: %w", err)`: annotates errors,
passes panics through untouched. -/
def wrapFailure (m : String) : Failure → Failure
  | .panicked p => .panicked p
  | .errored e => .errored ⟨m :: e.msgs, e.base⟩

/-- The message of `ErrEmptySquare` (eds.go:28). -/
def errEmptySquare : String := "share: importing empty data"

/-- Base error used for a failed sink write (the underlying `io.Writer`
error; its text is external to this repository). -/
def ioWriteError : String := "io: write error"

/-- External collaborators of the pipeline, as interfaces: the erasure
codec reimport (`rsmt2d.ImportExtendedDataSquare` with the NMT tree
constructor, taking the ods width), the inner-node cache contents that the
batch adder has staged once `Commit` returns (keyed by CID, given the batch
size), the two NMT hash functions, and the sink's per-record success. -/
structure Externals where
  importEDS : ℕ → List (List ℕ) → Except String ExtendedDataSquare
  commitStore : ℕ → Except String (List (List ℕ × List ℕ))
  leafHash : List ℕ → List ℕ
  innerHash : List ℕ → List ℕ
  sinkWriteOk : Event → Bool

/-- Modelled from the spec: `share.ExtractEDS` (repository code outside the
verified file) — the raw shares of the square in row-major matrix order
(§4.3 of the spec), as a fresh private copy of the cell contents. -/
def extractEDS (eds : ExtendedDataSquare) : List (List ℕ) :=
  (List.range eds.width).flatMap (fun i =>
    (List.range eds.width).map (fun j => eds.cells i j))

/-- Size in bytes of a namespaced NMT hash (namespace range bounds plus the
digest); only the fact that it is one fixed value matters here. -/
def nmtHashSize : ℕ := 48

/-- Fixed CID marker bytes (version, codec and multihash tags); only the
fact that they are one fixed value matters here. -/
def cidMarker : List ℕ := [1, 112, 120, 7]

/-- Modelled from the spec: `ipld.CidFromNamespacedSha256` (repository code
outside the verified file) — deterministic content-identifier derivation
from a namespaced hash, failing on a hash of the wrong length
(IdentifierDerivationError, §6/§7 of the spec). -/
def cidFromNamespacedSha256 (h : List ℕ) : Except String (List ℕ) :=
  if h.length = nmtHashSize then .ok (cidMarker ++ h) else .error "invalid namespaced hash length"

/-- The loop of `rootsToCids` (eds.go:208-213): derive a CID per root, the
first failure wrapped with "failure to get cid from root". -/
def cidsOfRoots : List (List ℕ) → Except WrappedError (List (List ℕ))
  | [] => .ok []
  | r :: rs =>
    match cidFromNamespacedSha256 r with
    | .error e => .error ⟨["failure to get cid from root"], e⟩
    | .ok c =>
      match cidsOfRoots rs with
      | .error w => .error w
      | .ok cs => .ok (c :: cs)

/-- Translation of `rootsToCids` (eds.go:204-215): CIDs of
`RowRoots ++ ColRoots` of the (reimported) square. -/
def rootsToCids (eds : ExtendedDataSquare) : Except WrappedError (List (List ℕ)) :=
  cidsOfRoots (eds.rowRoots ++ eds.colRoots)

/-- Translation of `writingSession` (eds.go:31-37): the reimported square
and the in-memory blockstore holding the cached inner nodes. -/
structure WritingSession where
  eds : ExtendedDataSquare
  store : List (List ℕ × List ℕ)

/-- Translation of `innerNodeBatchSize` (eds.go:219-221):
`(shareCount * 2) - (odsWidth * 4)`. -/
def innerNodeBatchSize (shareCount odsWidth : ℕ) : ℕ :=
  shareCount * 2 - odsWidth * 4

/-- Body of `initializeWriter` (eds.go:71-103) after share extraction:
reject an empty share list with `ErrEmptySquare`, compute the ods width and
batch size, reimport the square (wrapping failures with "failure to
recompute the extended data square"), force root computation, and commit
the staged batch (wrapping failures with "failure to commit the inner nodes
to the dag").  The ods width is `int(math.Sqrt(float64(shareCount)) / 2)`;
on the perfect even squares that reach reimport successfully this equals
`Nat.sqrt shareCount / 2` (the float computation is verified separately in
the `RoundsTo` model below). -/
def initializeWriterShares (ext : Externals) (shares : List (List ℕ)) :
    Except Failure WritingSession × List Event :=
  if shares.length = 0 then
    (.error (.errored ⟨[], errEmptySquare⟩), [.extractShares])
  else
    let odsWidth := Nat.sqrt shares.length / 2
    let batchSize := innerNodeBatchSize shares.length odsWidth
    match ext.importEDS odsWidth shares with
    | .error e =>
      (.error (.errored ⟨["failure to recompute the extended data square"], e⟩),
       [.extractShares, .importSquare])
    | .ok eds2 =>
      match ext.commitStore batchSize with
      | .error e =>
        (.error (.errored ⟨["failure to commit the inner nodes to the dag"], e⟩),
         [.extractShares, .importSquare, .computeRoots])
      | .ok store =>
        (.ok ⟨eds2, store⟩, [.extractShares, .importSquare, .computeRoots, .commitBatch])

/-- Translation of `initializeWriter` (eds.go:71-103): extract the shares
from the caller's square, then proceed on the extracted copy. -/
def initializeWriter (ext : Externals) (eds : ExtendedDataSquare) :
    Except Failure WritingSession × List Event :=
  initializeWriterShares ext (extractEDS eds)

/-- Translation of `writeHeader` (eds.go:106-116): derive the root CIDs
(wrapping failures with "failure getting root cids") and write one CARv1
header with `Version: 1` and those roots. -/
def writeHeaderPhase (ext : Externals) (w : WritingSession) :
    Except Failure Unit × List Event :=
  match rootsToCids w.eds with
  | .error e => (.error (.errored ⟨"failure getting root cids" :: e.msgs, e.base⟩), [])
  | .ok rootCids =>
    if ext.sinkWriteOk (.headerWrite 1 rootCids) then (.ok (), [.headerWrite 1 rootCids])
    else (.error (.errored ⟨[], ioWriteError⟩), [])

/-- Loop of `writeQuadrants` (eds.go:119-133): for each tagged share,
derive its CID from the flagged leaf hash (wrapping failures with "failure
to get cid from share") and write the leaf record (wrapping sink failures
with "failure to write share"). -/
def leafLoop (ext : Externals) : List (List ℕ) → Except Failure Unit × List Event
  | [] => (.ok (), [])
  | s :: rest =>
    match cidFromNamespacedSha256 (ext.leafHash s) with
    | .error e => (.error (.errored ⟨["failure to get cid from share"], e⟩), [])
    | .ok c =>
      if ext.sinkWriteOk (.leafWrite c s) then
        match leafLoop ext rest with
        | (r, evs) => (r, .leafWrite c s :: evs)
      else (.error (.errored ⟨["failure to write share"], ioWriteError⟩), [])

/-- Translation of `writeQuadrants` (eds.go:119-133): reorder the shares of
the reimported square into quadrant order, then write each tagged share. -/
def writeQuadrants (ext : Externals) (w : WritingSession) :
    Except Failure Unit × List Event :=
  match quadrantOrder w.eds with
  | .error p => (.error (.panicked p), [])
  | .ok shares => leafLoop ext shares

/-- Loop of `writeProofs` (eds.go:136-155): for each key of the blockstore,
read the node (wrapping a miss with "failure to get proof from the
blockstore"), derive its CID from the flagged inner hash (wrapping failures
with "failure to get cid") and write the proof record (wrapping sink
failures with "failure to write proof to the car"). -/
def proofLoop (ext : Externals) (store : List (List ℕ × List ℕ)) :
    List (List ℕ) → Except Failure Unit × List Event
  | [] => (.ok (), [])
  | k :: ks =>
    match store.lookup k with
    | none =>
      (.error (.errored ⟨["failure to get proof from the blockstore"], "blockstore: block not found"⟩),
       [.storeRead k])
    | some node =>
      match cidFromNamespacedSha256 (ext.innerHash node) with
      | .error e => (.error (.errored ⟨["failure to get cid"], e⟩), [.storeRead k])
      | .ok c =>
        if ext.sinkWriteOk (.proofWrite c node) then
          match proofLoop ext store ks with
          | (r, evs) => (r, .storeRead k :: .proofWrite c node :: evs)
        else
          (.error (.errored ⟨["failure to write proof to the car"], ioWriteError⟩), [.storeRead k])

/-- Translation of `writeProofs` (eds.go:136-155): enumerate the
blockstore's keys and write every cached inner node. -/
def writeProofs (ext : Externals) (w : WritingSession) :
    Except Failure Unit × List Event :=
  proofLoop ext w.store (w.store.map Prod.fst)

/-- Phase annotation of `WriteEDS` step 1 (eds.go:47). -/
def msgInitFail : String := "share: failure creating eds writer"

/-- Phase annotation of `WriteEDS` step 2 (eds.go:54). -/
def msgHeaderFail : String := "share: failure writing carv1 header"

/-- Phase annotation of `WriteEDS` step 3 (eds.go:60). -/
def msgSharesFail : String := "share: failure writing shares"

/-- Phase annotation of `WriteEDS` step 4 (eds.go:66). -/
def msgProofsFail : String := "share: failure writing proofs"

/-- Translation of `WriteEDS` (eds.go:42-68): run the four phases in order,
abort on the first failure, annotate each phase's error with its phase
message, and concatenate the emitted records in order. -/
def WriteEDS (ext : Externals) (eds : ExtendedDataSquare) :
    Except Failure Unit × List Event :=
  match initializeWriter ext eds with
  | (.error f, tr0) => (.error (wrapFailure msgInitFail f), tr0)
  | (.ok w, tr0) =>
    match writeHeaderPhase ext w with
    | (.error f, tr1) => (.error (wrapFailure msgHeaderFail f), tr0 ++ tr1)
    | (.ok _, tr1) =>
      match writeQuadrants ext w with
      | (.error f, tr2) => (.error (wrapFailure msgSharesFail f), tr0 ++ (tr1 ++ tr2))
      | (.ok _, tr2) =>
        match writeProofs ext w with
        | (.error f, tr3) =>
          (.error (wrapFailure msgProofsFail f), tr0 ++ (tr1 ++ (tr2 ++ tr3)))
        | (.ok _, tr3) => (.ok (), tr0 ++ (tr1 ++ (tr2 ++ tr3)))

/-- A rational number exactly representable as an IEEE-754 binary64 value:
a significand below `2^53` scaled by a power of two in the double range. -/
def isFloat64 (q : ℚ) : Prop :=
  ∃ m e : ℤ, m.natAbs < 2 ^ 53 ∧ -1074 ≤ e ∧ e ≤ 971 ∧ q = (m : ℚ) * 2 ^ e

/-- Correct rounding to nearest, the IEEE-754 semantics of `math.Sqrt` and
of float division: the returned value is a representable double no farther
from the exact real result than any other representable double. -/
def RoundsTo (x : ℝ) (f : ℚ) : Prop :=
  isFloat64 f ∧ ∀ g : ℚ, isFloat64 g → |x - (f : ℝ)| ≤ |x - (g : ℝ)|

/-- Go's `int(x)` conversion of an exact float value: truncation toward
zero (T-division of numerator by denominator). -/
def goTrunc (q : ℚ) : ℤ := Int.tdiv q.num (q.den : ℤ)

/-- Whether Go's `append(dst, src...)` writes into `dst`'s backing array
(capacity suffices) instead of allocating a fresh array. -/
def goAppendInPlace (dstLen dstCap srcLen : ℕ) : Bool :=
  decide (dstLen + srcLen ≤ dstCap)

/-- Whether `quadrantOrder` hit the `panic("invalid quadrant")` branch. -/
def quadrantOrderInvalidPanic (eds : ExtendedDataSquare) : Bool :=
  match quadrantOrder eds with
  | .error .invalidQuadrant => true
  | _ => false

/-- Whether `writeQuadrants` hit the `panic("invalid quadrant")` branch. -/
def writeQuadrantsInvalidPanic (ext : Externals) (w : WritingSession) : Bool :=
  match (writeQuadrants ext w).1 with
  | .error (.panicked .invalidQuadrant) => true
  | _ => false

/-- Concrete 8-byte share used by the witnesses. -/
def cellW : List ℕ := [1, 2, 3, 4, 5, 6, 7, 9]

/-- Concrete namespaced root hash of the model's hash size. -/
def rootW : List ℕ := List.replicate 48 5

/-- Concrete 2×2 square: every cell is `cellW`, two row and two column
roots. -/
def edsW : ExtendedDataSquare := ⟨2, fun _ _ => cellW, [rootW, rootW], [rootW, rootW]⟩

/-- Same cells as `edsW` but different commitment lists: extraction cannot
tell them apart. -/
def edsB : ExtendedDataSquare := ⟨2, fun _ _ => cellW, [], []⟩

/-- The empty square. -/
def edsEmpty : ExtendedDataSquare := ⟨0, fun _ _ => [], [], []⟩

/-- Concrete blockstore key used by the witnesses. -/
def keyW : List ℕ := List.replicate 48 6

/-- Concrete cached inner node used by the witnesses. -/
def nodeW : List ℕ := List.replicate 48 7

/-- Concrete externals for the witnesses: reimport yields `edsW`, commit
stages one inner node, the hashes return fixed digests of the right length,
and every sink write succeeds. -/
def extW : Externals :=
  ⟨fun _ _ => .ok edsW,
   fun _ => .ok [(keyW, nodeW)],
   fun _ => List.replicate 48 3,
   fun _ => List.replicate 48 2,
   fun _ => true⟩

theorem applyWrites_cons (p : ℕ) (v : List ℕ) (ws : List (ℕ × List ℕ)) (s : List (List ℕ)) :
    applyWrites ((p, v) :: ws) s = applyWrites ws (s.set p v) := rfl

theorem applyWrites_append (a b : List (ℕ × List ℕ)) (s : List (List ℕ)) :
    applyWrites (a ++ b) s = applyWrites b (applyWrites a s) := by
  simp [applyWrites, List.foldl_append]

theorem length_applyWrites (ws : List (ℕ × List ℕ)) (s : List (List ℕ)) :
    (applyWrites ws s).length = s.length := by
  induction ws generalizing s with
  | nil => rfl
  | cons hd tl ih => rw [show hd = (hd.1, hd.2) from rfl, applyWrites_cons, ih, List.length_set]

theorem applyWrites_getElem?_not_mem (ws : List (ℕ × List ℕ)) (s : List (List ℕ)) (p : ℕ)
    (h : p ∉ ws.map Prod.fst) : (applyWrites ws s)[p]? = s[p]? := by
  induction ws generalizing s with
  | nil => rfl
  | cons hd tl ih =>
    rw [show hd = (hd.1, hd.2) from rfl, applyWrites_cons]
    rw [List.map_cons, List.mem_cons, not_or] at h
    rw [ih _ h.2, List.getElem?_set, if_neg (fun hc => h.1 hc.symm)]

theorem applyWrites_getElem?_unique (ws : List (ℕ × List ℕ)) (s : List (List ℕ)) (p : ℕ)
    (v : List ℕ) (hmem : (p, v) ∈ ws)
    (huniq : ∀ q w, (q, w) ∈ ws → q = p → w = v) (hp : p < s.length) :
    (applyWrites ws s)[p]? = some v := by
  induction ws generalizing s with
  | nil => cases hmem
  | cons hd tl ih =>
    rw [show hd = (hd.1, hd.2) from rfl, applyWrites_cons]
    rcases List.mem_cons.mp hmem with hhd | htl
    · have h1 : hd.1 = p := congrArg Prod.fst hhd.symm
      have h2 : hd.2 = v := congrArg Prod.snd hhd.symm
      subst h1; subst h2
      by_cases hpt : hd.1 ∈ tl.map Prod.fst
      · obtain ⟨x, hx, hxf⟩ := List.mem_map.mp hpt
        have hx2 : (hd.1, x.2) ∈ tl := by rw [← hxf]; exact hx
        have hv : x.2 = hd.2 := huniq hd.1 x.2 (List.mem_cons_of_mem _ hx2) rfl
        rw [hv] at hx2
        exact ih (s.set hd.1 hd.2) hx2
          (fun q w hqw hq => huniq q w (List.mem_cons_of_mem _ hqw) hq)
          (by rw [List.length_set]; exact hp)
      · rw [applyWrites_getElem?_not_mem _ _ _ hpt, List.getElem?_set, if_pos rfl,
          if_pos hp]
    · exact ih (s.set hd.1 hd.2) htl
        (fun q w hqw hq => huniq q w (List.mem_cons_of_mem _ hqw) hq)
        (by rw [List.length_set]; exact hp)

theorem getQuadrantCells_getD_len (eds : ExtendedDataSquare)
    (hc : ∀ a b, 8 ≤ (eds.cells a b).length) (i j q : ℕ) (hq : q < 4) :
    8 ≤ ((getQuadrantCells eds i j).getD q []).length := by
  interval_cases q <;> exact hc _ _

theorem prependNamespace_ok (q : ℕ) (c : List ℕ) (hq : q < 4) (hc : 8 ≤ c.length) :
    prependNamespace q c = .ok (tagShare q c) := by
  interval_cases q <;> simp [prependNamespace, tagShare, hc]

theorem quadLoop_eq (eds : ExtendedDataSquare) (qs qw i j : ℕ)
    (hc : ∀ a b, 8 ≤ (eds.cells a b).length) :
    ∀ (Q : List ℕ) (s : List (List ℕ)), (∀ q ∈ Q, q < 4) →
      Q.foldlM (quadStep eds qs qw i j) s =
        .ok (applyWrites (Q.map (fun q =>
          (q * qs + (i * qw + j), tagShare q ((getQuadrantCells eds i j).getD q [])))) s) := by
  intro Q
  induction Q with
  | nil => intro s _; rfl
  | cons q Q ih =>
    intro s hQ
    have hq : q < 4 := hQ q (List.mem_cons_self q Q)
    have hstep : quadStep eds qs qw i j s q =
        .ok (s.set (q * qs + (i * qw + j))
          (tagShare q ((getQuadrantCells eds i j).getD q []))) := by
      rw [quadStep, prependNamespace_ok q _ hq (getQuadrantCells_getD_len eds hc i j q hq)]
    rw [List.foldlM_cons, hstep]
    show Q.foldlM (quadStep eds qs qw i j) _ = _
    rw [ih _ (fun a ha => hQ a (List.mem_cons_of_mem _ ha)), List.map_cons, applyWrites_cons]

theorem rowLoop_eq (eds : ExtendedDataSquare) (qs qw i : ℕ)
    (hc : ∀ a b, 8 ≤ (eds.cells a b).length) :
    ∀ (J : List ℕ) (s : List (List ℕ)),
      J.foldlM (fun shares j => (List.range 4).foldlM (quadStep eds qs qw i j) shares) s =
        .ok (applyWrites (J.flatMap (fun j => (List.range 4).map (fun q =>
          (q * qs + (i * qw + j), tagShare q ((getQuadrantCells eds i j).getD q []))))) s) := by
  intro J
  induction J with
  | nil => intro s; rfl
  | cons j J ih =>
    intro s
    rw [List.foldlM_cons, quadLoop_eq eds qs qw i j hc _ s (fun q hq => List.mem_range.mp hq)]
    show J.foldlM _ _ = _
    rw [ih, List.flatMap_cons, applyWrites_append]

theorem outerLoop_eq (eds : ExtendedDataSquare) (qs qw : ℕ)
    (hc : ∀ a b, 8 ≤ (eds.cells a b).length) :
    ∀ (I : List ℕ) (s : List (List ℕ)),
      I.foldlM (fun shares i =>
          (List.range qw).foldlM
            (fun shares j => (List.range 4).foldlM (quadStep eds qs qw i j) shares) shares) s =
        .ok (applyWrites (I.flatMap (fun i => (List.range qw).flatMap (fun j =>
          (List.range 4).map (fun q =>
            (q * qs + (i * qw + j),
             tagShare q ((getQuadrantCells eds i j).getD q [])))))) s) := by
  intro I
  induction I with
  | nil => intro s; rfl
  | cons i I ih =>
    intro s
    rw [List.foldlM_cons, rowLoop_eq eds qs qw i hc _ s]
    show I.foldlM _ _ = _
    rw [ih, List.flatMap_cons, applyWrites_append]

theorem quadrantOrder_eq_applyWrites (eds : ExtendedDataSquare)
    (hc : ∀ a b, 8 ≤ (eds.cells a b).length) :
    quadrantOrder eds =
      .ok (applyWrites (quadrantWrites eds) (List.replicate (eds.width * eds.width) [])) :=
  outerLoop_eq eds ((eds.width / 2) * (eds.width / 2)) (eds.width / 2) hc
    (List.range (eds.width / 2)) (List.replicate (eds.width * eds.width) [])

theorem innerOffset_lt (k i j : ℕ) (hi : i < k) (hj : j < k) : i * k + j < k * k := by
  have h1 : i * k + j < (i + 1) * k := by
    rw [Nat.succ_mul]
    omega
  have h2 : (i + 1) * k ≤ k * k := Nat.mul_le_mul_right k hi
  omega

theorem split_div (a b n : ℕ) (hn : 0 < n) (hb : b < n) : (a * n + b) / n = a := by
  rw [Nat.add_comm, Nat.add_mul_div_right _ _ hn, Nat.div_eq_of_lt hb, Nat.zero_add]

theorem encode_inj (k q i j q' i' j' : ℕ) (hi : i < k) (hj : j < k) (hi' : i' < k)
    (hj' : j' < k) (h : q * (k * k) + (i * k + j) = q' * (k * k) + (i' * k + j')) :
    q = q' ∧ i = i' ∧ j = j' := by
  have hk : 0 < k := Nat.pos_of_ne_zero (fun hk0 => by subst hk0; exact absurd hi (Nat.not_lt_zero i))
  have hkk : 0 < k * k := Nat.mul_pos hk hk
  have hr : i * k + j < k * k := innerOffset_lt k i j hi hj
  have hr' : i' * k + j' < k * k := innerOffset_lt k i' j' hi' hj'
  have hq : q = q' := by
    have e1 := split_div q (i * k + j) (k * k) hkk hr
    have e2 := split_div q' (i' * k + j') (k * k) hkk hr'
    rw [← e1, h, e2]
  subst hq
  have hrr : i * k + j = i' * k + j' := Nat.add_left_cancel h
  have hii : i = i' := by
    have e1 := split_div i j k hk hj
    have e2 := split_div i' j' k hk hj'
    rw [← e1, hrr, e2]
  subst hii
  exact ⟨rfl, rfl, by omega⟩

theorem qw_eq (eds : ExtendedDataSquare) (k : ℕ) (hw : eds.width = 2 * k) :
    eds.width / 2 = k := by
  rw [hw, Nat.mul_div_cancel_left k (by norm_num)]

theorem quadrantWrites_mem (eds : ExtendedDataSquare) (k i j q : ℕ) (hw : eds.width = 2 * k)
    (hi : i < k) (hj : j < k) (hq : q < 4) :
    (q * (k * k) + (i * k + j), tagShare q ((getQuadrantCells eds i j).getD q []))
      ∈ quadrantWrites eds := by
  have hqw := qw_eq eds k hw
  rw [quadrantWrites, hqw]
  exact List.mem_flatMap.mpr ⟨i, List.mem_range.mpr hi,
    List.mem_flatMap.mpr ⟨j, List.mem_range.mpr hj,
      List.mem_map.mpr ⟨q, List.mem_range.mpr hq, rfl⟩⟩⟩

theorem quadrantWrites_uniq (eds : ExtendedDataSquare) (k i j q : ℕ) (hw : eds.width = 2 * k)
    (hi : i < k) (hj : j < k) :
    ∀ a w, (a, w) ∈ quadrantWrites eds → a = q * (k * k) + (i * k + j) →
      w = tagShare q ((getQuadrantCells eds i j).getD q []) := by
  have hqw := qw_eq eds k hw
  intro a w hmem ha
  rw [quadrantWrites, hqw] at hmem
  obtain ⟨i', hi', hrest⟩ := List.mem_flatMap.mp hmem
  obtain ⟨j', hj', hmap⟩ := List.mem_flatMap.mp hrest
  obtain ⟨q', hq', heq⟩ := List.mem_map.mp hmap
  rw [List.mem_range] at hi' hj'
  have ha' : q' * (k * k) + (i' * k + j') = a := congrArg Prod.fst heq
  have hw' : tagShare q' ((getQuadrantCells eds i' j').getD q' []) = w := congrArg Prod.snd heq
  rw [ha] at ha'
  obtain ⟨hq2, hi2, hj2⟩ := encode_inj k q' i' j' q i j hi' hj' hi hj ha'
  subst hq2; subst hi2; subst hj2
  exact hw'.symm

/-- Claim C1: for a reconstructed matrix of even width `W = 2k` whose cells
are full shares (at least 8 bytes each) and every quadrant-local coordinate
`(i,j)` with `i,j < k`, `quadrantOrder` succeeds, its output has length
`W²`, and the tagged form of cell `(i,j)` sits at flat position
`0·k²+(i·k+j)`, of `(i,j+k)` at `1·k²+(i·k+j)`, of `(i+k,j)` at
`2·k²+(i·k+j)`, and of `(i+k,j+k)` at `3·k²+(i·k+j)` — quadrant 0 row-major
first, then quadrants 1, 2, 3 each row-major. -/
theorem quadrantOrder_layout (eds : ExtendedDataSquare) (k i j : ℕ)
    (hw : eds.width = 2 * k) (hi : i < k) (hj : j < k)
    (hc : ∀ a b, 8 ≤ (eds.cells a b).length) :
    ∃ L, quadrantOrder eds = .ok L ∧ L.length = eds.width * eds.width ∧
      L[0 * (k * k) + (i * k + j)]? = some ((eds.cells i j).take 8 ++ eds.cells i j) ∧
      L[1 * (k * k) + (i * k + j)]? = some (ParitySharesNamespaceID ++ eds.cells i (j + k)) ∧
      L[2 * (k * k) + (i * k + j)]? = some (ParitySharesNamespaceID ++ eds.cells (i + k) j) ∧
      L[3 * (k * k) + (i * k + j)]? = some (ParitySharesNamespaceID ++ eds.cells (i + k) (j + k)) := by
  have hqw := qw_eq eds k hw
  have hr : i * k + j < k * k := innerOffset_lt k i j hi hj
  have hsize : ∀ q, q < 4 → q * (k * k) + (i * k + j) < eds.width * eds.width := by
    intro q hq
    have h4 : eds.width * eds.width = 4 * (k * k) := by rw [hw]; ring
    have h3 : q * (k * k) ≤ 3 * (k * k) := Nat.mul_le_mul_right _ (by omega)
    omega
  have hget : ∀ q, q < 4 →
      (applyWrites (quadrantWrites eds)
        (List.replicate (eds.width * eds.width) []))[q * (k * k) + (i * k + j)]? =
        some (tagShare q ((getQuadrantCells eds i j).getD q [])) := by
    intro q hq
    exact applyWrites_getElem?_unique (quadrantWrites eds) _ _ _
      (quadrantWrites_mem eds k i j q hw hi hj hq)
      (quadrantWrites_uniq eds k i j q hw hi hj)
      (by rw [List.length_replicate]; exact hsize q hq)
  refine ⟨_, quadrantOrder_eq_applyWrites eds hc, ?_, ?_, ?_, ?_, ?_⟩
  · rw [length_applyWrites, List.length_replicate]
  · rw [hget 0 (by norm_num)]
    simp [tagShare, getQuadrantCells]
  · rw [hget 1 (by norm_num)]
    simp [tagShare, getQuadrantCells, hqw]
  · rw [hget 2 (by norm_num)]
    simp [tagShare, getQuadrantCells, hqw]
  · rw [hget 3 (by norm_num)]
    simp [tagShare, getQuadrantCells, hqw]

/-- Witness for C1: the concrete 2×2 square `edsW` with `k = 1`, `i = j = 0`. -/
theorem quadrantOrder_layout_check :
    edsW.width = 2 * 1 ∧ (0 : ℕ) < 1 ∧ (∀ a b, 8 ≤ (edsW.cells a b).length) ∧
    (∃ L, quadrantOrder edsW = .ok L ∧ L.length = edsW.width * edsW.width ∧
      L[0 * (1 * 1) + (0 * 1 + 0)]? = some ((edsW.cells 0 0).take 8 ++ edsW.cells 0 0) ∧
      L[1 * (1 * 1) + (0 * 1 + 0)]? = some (ParitySharesNamespaceID ++ edsW.cells 0 (0 + 1)) ∧
      L[2 * (1 * 1) + (0 * 1 + 0)]? = some (ParitySharesNamespaceID ++ edsW.cells (0 + 1) 0) ∧
      L[3 * (1 * 1) + (0 * 1 + 0)]? = some (ParitySharesNamespaceID ++ edsW.cells (0 + 1) (0 + 1))) :=
  ⟨rfl, Nat.zero_lt_one, fun _ _ => Nat.le_refl 8,
   quadrantOrder_layout edsW 1 0 0 rfl Nat.zero_lt_one Nat.zero_lt_one (fun _ _ => Nat.le_refl 8)⟩

/-- Claim C2: for every share `s` (of full share size, hence at least 8
bytes), the tagged form for quadrant 0 is the first 8 bytes of `s` followed
by all of `s` (the namespace duplicated in front of the full share), and
for quadrants 1, 2 and 3 it is the parity-namespace constant followed by
all of `s`. -/
theorem prependNamespace_tagging (s : List ℕ) (h : 8 ≤ s.length) :
    prependNamespace 0 s = .ok (s.take 8 ++ s) ∧
    prependNamespace 1 s = .ok (ParitySharesNamespaceID ++ s) ∧
    prependNamespace 2 s = .ok (ParitySharesNamespaceID ++ s) ∧
    prependNamespace 3 s = .ok (ParitySharesNamespaceID ++ s) := by
  refine ⟨?_, rfl, rfl, rfl⟩
  simp [prependNamespace, h]

/-- Witness for C2: the concrete 8-byte share `cellW`. -/
theorem prependNamespace_tagging_check :
    8 ≤ cellW.length ∧
    (prependNamespace 0 cellW = .ok (cellW.take 8 ++ cellW) ∧
     prependNamespace 1 cellW = .ok (ParitySharesNamespaceID ++ cellW) ∧
     prependNamespace 2 cellW = .ok (ParitySharesNamespaceID ++ cellW) ∧
     prependNamespace 3 cellW = .ok (ParitySharesNamespaceID ++ cellW)) :=
  ⟨by decide, prependNamespace_tagging cellW (by decide)⟩

theorem prependNamespace_ne_invalid (q : ℕ) (c : List ℕ) (hq : q < 4) :
    prependNamespace q c ≠ .error .invalidQuadrant := by
  interval_cases q
  · simp only [prependNamespace]
    split <;> simp
  · simp [prependNamespace]
  · simp [prependNamespace]
  · simp [prependNamespace]

theorem quadStep_ne_invalid (eds : ExtendedDataSquare) (qs qw i j : ℕ)
    (s : List (List ℕ)) (q : ℕ) (hq : q < 4) :
    quadStep eds qs qw i j s q ≠ .error .invalidQuadrant := by
  rw [quadStep]
  rcases h : prependNamespace q ((getQuadrantCells eds i j).getD q []) with p | t
  · intro hcontra
    have hp : p = GoPanic.invalidQuadrant := by
      cases hcontra
      rfl
    rw [hp] at h
    exact prependNamespace_ne_invalid q _ hq h
  · simp

theorem foldlM_ne_invalid {σ α : Type} (f : σ → α → Except GoPanic σ) (l : List α) :
    ∀ s : σ, (∀ s' a, a ∈ l → f s' a ≠ .error .invalidQuadrant) →
      l.foldlM f s ≠ .error .invalidQuadrant := by
  induction l with
  | nil =>
    intro s _ hcontra
    exact Except.noConfusion hcontra
  | cons a t ih =>
    intro s h hcontra
    rw [List.foldlM_cons] at hcontra
    rcases hfa : f s a with p | s'
    · rw [hfa] at hcontra
      have hbind : (Except.error p >>= fun b => t.foldlM f b) =
          (Except.error p : Except GoPanic σ) := rfl
      rw [hbind] at hcontra
      have hp : p = GoPanic.invalidQuadrant := by
        injection hcontra
      exact h s a (List.mem_cons_self a t) (by rw [hfa, hp])
    · rw [hfa] at hcontra
      have hbind : (Except.ok s' >>= fun b => t.foldlM f b) = t.foldlM f s' := rfl
      rw [hbind] at hcontra
      exact ih s' (fun s'' a' ha' => h s'' a' (List.mem_cons_of_mem _ ha')) hcontra

theorem quadrantOrder_ne_invalid (eds : ExtendedDataSquare) :
    quadrantOrder eds ≠ .error .invalidQuadrant := by
  apply foldlM_ne_invalid
  intro s1 i _
  apply foldlM_ne_invalid
  intro s2 j _
  apply foldlM_ne_invalid
  intro s3 q hq
  exact quadStep_ne_invalid eds _ _ i j s3 q (List.mem_range.mp hq)

theorem leafLoop_no_panic (ext : Externals) (l : List (List ℕ)) :
    ∀ p, (leafLoop ext l).1 ≠ .error (.panicked p) := by
  induction l with
  | nil =>
    intro p
    simp [leafLoop]
  | cons s rest ih =>
    intro p
    rw [leafLoop]
    rcases cidFromNamespacedSha256 (ext.leafHash s) with e | c
    · simp
    · simp only []
      split
      · rcases hrec : leafLoop ext rest with ⟨r, evs⟩
        have := ih p
        rw [hrec] at this
        simpa [hrec] using this
      · simp

/-- Claim C9: every invocation of `prependNamespace` reachable from
`quadrantOrder` passes a quadrant in 0..3, so the
`panic("invalid quadrant")` branch is unreachable: neither `quadrantOrder`
nor the leaf-section writer ever produces that panic. -/
theorem invalidQuadrant_unreachable :
    (∀ eds, quadrantOrderInvalidPanic eds = false) ∧
    (∀ ext w, writeQuadrantsInvalidPanic ext w = false) := by
  constructor
  · intro eds
    rw [quadrantOrderInvalidPanic]
    rcases h : quadrantOrder eds with p | L
    · cases p
      · rfl
      · exact absurd h (quadrantOrder_ne_invalid eds)
    · rfl
  · intro ext w
    rw [writeQuadrantsInvalidPanic, writeQuadrants]
    rcases h : quadrantOrder w.eds with p | shares
    · cases p
      · rfl
      · exact absurd h (quadrantOrder_ne_invalid w.eds)
    · rcases hl : leafLoop ext shares with ⟨r, evs⟩
      rcases r with f | u
      · rcases f with p | e
        · have hnp := leafLoop_no_panic ext shares p
          rw [hl] at hnp
          exact (hnp rfl).elim
        · simp [hl]
      · simp [hl]

theorem initializeWriterShares_events (ext : Externals) (shares : List (List ℕ)) :
    ∀ e ∈ (initializeWriterShares ext shares).2, e ∈ initTrace := by
  intro e he
  simp only [initializeWriterShares] at he
  split at he
  · simp at he
    simp [he, initTrace]
  · split at he
    · simp at he
      rcases he with h | h <;> simp [h, initTrace]
    · split at he
      · simp at he
        rcases he with h | h | h <;> simp [h, initTrace]
      · simp at he
        rcases he with h | h | h | h <;> simp [h, initTrace]

theorem initializeWriter_ok_trace (ext : Externals) (eds : ExtendedDataSquare)
    (w : WritingSession) (tr : List Event)
    (h : initializeWriter ext eds = (.ok w, tr)) : tr = initTrace := by
  simp only [initializeWriter, initializeWriterShares] at h
  split at h
  · exact absurd (congrArg Prod.fst h) (by simp)
  · split at h
    · exact absurd (congrArg Prod.fst h) (by simp)
    · split at h
      · exact absurd (congrArg Prod.fst h) (by simp)
      · exact (congrArg Prod.snd h).symm

theorem writeHeaderPhase_events (ext : Externals) (w : WritingSession) :
    ∀ e ∈ (writeHeaderPhase ext w).2, e.isHeaderWrite = true := by
  intro e he
  rw [writeHeaderPhase] at he
  split at he
  · simp at he
  · split at he
    · simp at he
      simp [he, Event.isHeaderWrite]
    · simp at he

theorem leafLoop_events (ext : Externals) :
    ∀ l, ∀ e ∈ (leafLoop ext l).2, e.isLeafWrite = true := by
  intro l
  induction l with
  | nil =>
    intro e he
    simp [leafLoop] at he
  | cons s rest ih =>
    intro e he
    rw [leafLoop] at he
    split at he
    · simp at he
    · split at he
      · rcases hrec : leafLoop ext rest with ⟨r, evs⟩
        rw [hrec] at he
        simp at he
        rcases he with h | h
        · simp [h, Event.isLeafWrite]
        · have hih := ih e
          rw [hrec] at hih
          exact hih h
      · simp at he

theorem writeQuadrants_events (ext : Externals) (w : WritingSession) :
    ∀ e ∈ (writeQuadrants ext w).2, e.isLeafWrite = true := by
  intro e he
  rw [writeQuadrants] at he
  split at he
  · simp at he
  · exact leafLoop_events ext _ e he

theorem proofLoop_events (ext : Externals) (store : List (List ℕ × List ℕ)) :
    ∀ ks, ∀ e ∈ (proofLoop ext store ks).2, e.isProofPhase = true := by
  intro ks
  induction ks with
  | nil =>
    intro e he
    simp [proofLoop] at he
  | cons k ks ih =>
    intro e he
    rw [proofLoop] at he
    split at he
    · simp at he
      simp [he, Event.isProofPhase]
    · split at he
      · simp at he
        simp [he, Event.isProofPhase]
      · split at he
        · rcases hrec : proofLoop ext store ks with ⟨r, evs⟩
          rw [hrec] at he
          simp at he
          rcases he with h | h | h
          · simp [h, Event.isProofPhase]
          · simp [h, Event.isProofPhase]
          · have hih := ih e
            rw [hrec] at hih
            exact hih h
        · simp at he
          simp [he, Event.isProofPhase]

theorem writeProofs_events (ext : Externals) (w : WritingSession) :
    ∀ e ∈ (writeProofs ext w).2, e.isProofPhase = true := by
  intro e he
  exact proofLoop_events ext w.store _ e he

theorem initTrace_flags (e : Event) (h : e ∈ initTrace) :
    e.isSinkWrite = false ∧ e.isLeafWrite = false ∧ e.isProofPhase = false ∧
      e.isHeaderWrite = false := by
  simp [initTrace] at h
  rcases h with h | h | h | h <;> subst h <;> exact ⟨rfl, rfl, rfl, rfl⟩

theorem headerWrite_flags (e : Event) (h : e.isHeaderWrite = true) :
    e.isLeafWrite = false ∧ e.isProofPhase = false := by
  cases e <;> simp_all [Event.isHeaderWrite, Event.isLeafWrite, Event.isProofPhase]

theorem leafWrite_flags (e : Event) (h : e.isLeafWrite = true) :
    e.isProofPhase = false ∧ e.isHeaderWrite = false := by
  cases e <;> simp_all [Event.isLeafWrite, Event.isProofPhase, Event.isHeaderWrite]

theorem proofPhase_flags (e : Event) (h : e.isProofPhase = true) :
    e.isLeafWrite = false ∧ e.isHeaderWrite = false := by
  cases e <;> simp_all [Event.isLeafWrite, Event.isProofPhase, Event.isHeaderWrite]

theorem getElem?_append_cases (l1 l2 : List Event) (n : ℕ) (e : Event)
    (h : (l1 ++ l2)[n]? = some e) :
    (n < l1.length ∧ l1[n]? = some e) ∨ (l1.length ≤ n ∧ l2[n - l1.length]? = some e) := by
  rcases Nat.lt_or_ge n l1.length with hlt | hge
  · exact Or.inl ⟨hlt, by rw [← List.getElem?_append_left hlt]; exact h⟩
  · exact Or.inr ⟨hge, by rw [← List.getElem?_append_right hge]; exact h⟩

theorem writeEDS_init_error (ext : Externals) (eds : ExtendedDataSquare) (f : Failure)
    (tr0 : List Event) (h : initializeWriter ext eds = (.error f, tr0)) :
    WriteEDS ext eds = (.error (wrapFailure msgInitFail f), tr0) := by
  simp only [WriteEDS, h]

theorem writeEDS_header_error (ext : Externals) (eds : ExtendedDataSquare)
    (w : WritingSession) (tr0 : List Event) (f : Failure) (tr1 : List Event)
    (h0 : initializeWriter ext eds = (.ok w, tr0))
    (h1 : writeHeaderPhase ext w = (.error f, tr1)) :
    WriteEDS ext eds = (.error (wrapFailure msgHeaderFail f), tr0 ++ tr1) := by
  simp only [WriteEDS, h0, h1]

theorem writeEDS_shares_error (ext : Externals) (eds : ExtendedDataSquare)
    (w : WritingSession) (tr0 tr1 : List Event) (f : Failure) (tr2 : List Event)
    (h0 : initializeWriter ext eds = (.ok w, tr0))
    (h1 : writeHeaderPhase ext w = (.ok (), tr1))
    (h2 : writeQuadrants ext w = (.error f, tr2)) :
    WriteEDS ext eds = (.error (wrapFailure msgSharesFail f), tr0 ++ (tr1 ++ tr2)) := by
  simp only [WriteEDS, h0, h1, h2]

theorem writeEDS_proofs_error (ext : Externals) (eds : ExtendedDataSquare)
    (w : WritingSession) (tr0 tr1 tr2 : List Event) (f : Failure) (tr3 : List Event)
    (h0 : initializeWriter ext eds = (.ok w, tr0))
    (h1 : writeHeaderPhase ext w = (.ok (), tr1))
    (h2 : writeQuadrants ext w = (.ok (), tr2))
    (h3 : writeProofs ext w = (.error f, tr3)) :
    WriteEDS ext eds = (.error (wrapFailure msgProofsFail f), tr0 ++ (tr1 ++ (tr2 ++ tr3))) := by
  simp only [WriteEDS, h0, h1, h2, h3]

theorem writeEDS_ok (ext : Externals) (eds : ExtendedDataSquare)
    (w : WritingSession) (tr0 tr1 tr2 tr3 : List Event)
    (h0 : initializeWriter ext eds = (.ok w, tr0))
    (h1 : writeHeaderPhase ext w = (.ok (), tr1))
    (h2 : writeQuadrants ext w = (.ok (), tr2))
    (h3 : writeProofs ext w = (.ok (), tr3)) :
    WriteEDS ext eds = (.ok (), tr0 ++ (tr1 ++ (tr2 ++ tr3))) := by
  simp only [WriteEDS, h0, h1, h2, h3]

/-- Claim C4: in every execution of the write pipeline, root computation
(trace position 2) and the batch commit (trace position 3) have happened
before any proof-phase action — every cache read or proof write sits
strictly after position 3 in the trace, so proof emission never reads the
cache before the commit completes. -/
theorem proofs_after_commit (ext : Externals) (eds : ExtendedDataSquare) (n : ℕ) (e : Event)
    (hn : (WriteEDS ext eds).2[n]? = some e) (he : e.isProofPhase = true) :
    (WriteEDS ext eds).2[2]? = some .computeRoots ∧
    (WriteEDS ext eds).2[3]? = some .commitBatch ∧ 3 < n := by
  have hinit_nope : ∀ e' : Event, e' ∈ initTrace → e'.isProofPhase = true → False := by
    intro e' h1 h2
    rw [(initTrace_flags e' h1).2.2.1] at h2
    exact Bool.noConfusion h2
  rcases hinit : initializeWriter ext eds with ⟨ri, tr0⟩
  rcases ri with f | w
  · rw [writeEDS_init_error ext eds f tr0 hinit] at hn
    have hmem : e ∈ tr0 := List.getElem?_mem hn
    have hmem2 : e ∈ initTrace := by
      have h2 := initializeWriterShares_events ext (extractEDS eds) e
      have h3 : (initializeWriterShares ext (extractEDS eds)).2 = tr0 := congrArg Prod.snd hinit
      rw [h3] at h2
      exact h2 hmem
    exact (hinit_nope e hmem2 he).elim
  · have htr0 := initializeWriter_ok_trace ext eds w tr0 hinit
    subst htr0
    rcases hh : writeHeaderPhase ext w with ⟨rh, tr1⟩
    have htr1 : ∀ e' : Event, e' ∈ tr1 → e'.isHeaderWrite = true := by
      intro e' h1
      have h2 := writeHeaderPhase_events ext w e'
      rw [hh] at h2
      exact h2 h1
    rcases rh with f1 | u1
    · rw [writeEDS_header_error ext eds w initTrace f1 tr1 hinit hh] at hn
      rcases getElem?_append_cases initTrace tr1 n e hn with ⟨_, h1⟩ | ⟨_, h1⟩
      · exact (hinit_nope e (List.getElem?_mem h1) he).elim
      · rw [(headerWrite_flags e (htr1 e (List.getElem?_mem h1))).2] at he
        exact Bool.noConfusion he
    · rcases hq : writeQuadrants ext w with ⟨rq, tr2⟩
      have htr2 : ∀ e' : Event, e' ∈ tr2 → e'.isLeafWrite = true := by
        intro e' h1
        have h2 := writeQuadrants_events ext w e'
        rw [hq] at h2
        exact h2 h1
      rcases rq with f2 | u2
      · rw [writeEDS_shares_error ext eds w initTrace tr1 f2 tr2 hinit hh hq] at hn
        rcases getElem?_append_cases initTrace (tr1 ++ tr2) n e hn with ⟨_, h1⟩ | ⟨_, h1⟩
        · exact (hinit_nope e (List.getElem?_mem h1) he).elim
        · rcases List.mem_append.mp (List.getElem?_mem h1) with h2 | h2
          · rw [(headerWrite_flags e (htr1 e h2)).2] at he
            exact Bool.noConfusion he
          · rw [(leafWrite_flags e (htr2 e h2)).1] at he
            exact Bool.noConfusion he
      · rcases hp : writeProofs ext w with ⟨rp, tr3⟩
        have htrace : (WriteEDS ext eds).2 = initTrace ++ (tr1 ++ (tr2 ++ tr3)) := by
          rcases rp with f3 | u3
          · rw [writeEDS_proofs_error ext eds w initTrace tr1 tr2 f3 tr3 hinit hh hq hp]
          · rw [writeEDS_ok ext eds w initTrace tr1 tr2 tr3 hinit hh hq hp]
        rw [htrace] at hn ⊢
        refine ⟨by simp [initTrace], by simp [initTrace], ?_⟩
        rcases getElem?_append_cases initTrace (tr1 ++ (tr2 ++ tr3)) n e hn with ⟨_, h1⟩ | ⟨hge, _⟩
        · exact (hinit_nope e (List.getElem?_mem h1) he).elim
        · have h4 : initTrace.length = 4 := rfl
          omega

/-- Witness for C4: the concrete full run over `edsW` reads the cache at
trace position 9, and the roots/commit events sit at positions 2 and 3. -/
theorem proofs_after_commit_check :
    (WriteEDS extW edsW).2[9]? = some (.storeRead keyW) ∧
    Event.isProofPhase (.storeRead keyW) = true ∧
    ((WriteEDS extW edsW).2[2]? = some .computeRoots ∧
     (WriteEDS extW edsW).2[3]? = some .commitBatch ∧ 3 < 9) :=
  ⟨by decide, rfl, proofs_after_commit extW edsW 9 (.storeRead keyW) (by decide) rfl⟩

/-- Claim C5: a matrix whose extracted share count is zero makes the call
fail with `ErrEmptySquare` (wrapped in the writer-creation annotation), and
nothing at all is written to the sink. -/
theorem emptySquare_rejected (ext : Externals) (eds : ExtendedDataSquare)
    (h : (extractEDS eds).length = 0) :
    WriteEDS ext eds =
      (.error (.errored ⟨[msgInitFail], errEmptySquare⟩), [.extractShares]) ∧
    ∀ e ∈ (WriteEDS ext eds).2, e.isSinkWrite = false := by
  have hinit : initializeWriter ext eds =
      (.error (.errored ⟨[], errEmptySquare⟩), [.extractShares]) := by
    rw [initializeWriter, initializeWriterShares, if_pos h]
  have hmain : WriteEDS ext eds =
      (.error (.errored ⟨[msgInitFail], errEmptySquare⟩), [.extractShares]) :=
    writeEDS_init_error ext eds _ _ hinit
  refine ⟨hmain, ?_⟩
  rw [hmain]
  intro e he
  simp at he
  subst he
  rfl

/-- Witness for C5: the zero-width square `edsEmpty`. -/
theorem emptySquare_rejected_check :
    (extractEDS edsEmpty).length = 0 ∧
    WriteEDS extW edsEmpty =
      (.error (.errored ⟨[msgInitFail], errEmptySquare⟩), [.extractShares]) :=
  ⟨rfl, (emptySquare_rejected extW edsEmpty rfl).1⟩

/-- Claim C7: the first failing phase aborts the whole call with no
partial-success result: the returned error is the phase's own error wrapped
with exactly that phase's annotation (so the underlying error's kind is
preserved under the wrap), and no later phase emits anything — an
initialization failure writes nothing to the sink, a header failure leaves
no leaf or proof records, a leaf failure leaves no proof records. -/
theorem phase_error_wrapping (ext : Externals) (eds : ExtendedDataSquare) :
    (∀ m e, wrapFailure m (.errored e) = .errored ⟨m :: e.msgs, e.base⟩) ∧
    (∀ f tr, initializeWriter ext eds = (.error f, tr) →
      WriteEDS ext eds = (.error (wrapFailure msgInitFail f), tr) ∧
      ∀ e ∈ (WriteEDS ext eds).2, e.isSinkWrite = false) ∧
    (∀ w tr0 f tr1, initializeWriter ext eds = (.ok w, tr0) →
      writeHeaderPhase ext w = (.error f, tr1) →
      (WriteEDS ext eds).1 = .error (wrapFailure msgHeaderFail f) ∧
      ∀ e ∈ (WriteEDS ext eds).2, e.isLeafWrite = false ∧ e.isProofPhase = false) ∧
    (∀ w tr0 tr1 f tr2, initializeWriter ext eds = (.ok w, tr0) →
      writeHeaderPhase ext w = (.ok (), tr1) → writeQuadrants ext w = (.error f, tr2) →
      (WriteEDS ext eds).1 = .error (wrapFailure msgSharesFail f) ∧
      ∀ e ∈ (WriteEDS ext eds).2, e.isProofPhase = false) ∧
    (∀ w tr0 tr1 tr2 f tr3, initializeWriter ext eds = (.ok w, tr0) →
      writeHeaderPhase ext w = (.ok (), tr1) → writeQuadrants ext w = (.ok (), tr2) →
      writeProofs ext w = (.error f, tr3) →
      (WriteEDS ext eds).1 = .error (wrapFailure msgProofsFail f)) := by
  refine ⟨fun m e => rfl, ?_, ?_, ?_, ?_⟩
  · intro f tr h
    have hmain := writeEDS_init_error ext eds f tr h
    refine ⟨hmain, ?_⟩
    rw [hmain]
    intro e he
    have hmem : e ∈ initTrace := by
      have h2 := initializeWriterShares_events ext (extractEDS eds) e
      have h3 : (initializeWriterShares ext (extractEDS eds)).2 = tr := congrArg Prod.snd h
      rw [h3] at h2
      exact h2 he
    exact (initTrace_flags e hmem).1
  · intro w tr0 f tr1 h0 h1
    have htr0 := initializeWriter_ok_trace ext eds w tr0 h0
    subst htr0
    have hmain := writeEDS_header_error ext eds w initTrace f tr1 h0 h1
    rw [hmain]
    refine ⟨rfl, ?_⟩
    intro e he
    rcases List.mem_append.mp he with h2 | h2
    · exact ⟨(initTrace_flags e h2).2.1, (initTrace_flags e h2).2.2.1⟩
    · have hhdr : e.isHeaderWrite = true := by
        have h3 := writeHeaderPhase_events ext w e
        rw [h1] at h3
        exact h3 h2
      exact headerWrite_flags e hhdr
  · intro w tr0 tr1 f tr2 h0 h1 h2
    have htr0 := initializeWriter_ok_trace ext eds w tr0 h0
    subst htr0
    have hmain := writeEDS_shares_error ext eds w initTrace tr1 f tr2 h0 h1 h2
    rw [hmain]
    refine ⟨rfl, ?_⟩
    intro e he
    rcases List.mem_append.mp he with h3 | h3
    · exact (initTrace_flags e h3).2.2.1
    · rcases List.mem_append.mp h3 with h4 | h4
      · have hhdr : e.isHeaderWrite = true := by
          have h5 := writeHeaderPhase_events ext w e
          rw [h1] at h5
          exact h5 h4
        exact (headerWrite_flags e hhdr).2
      · have hleaf : e.isLeafWrite = true := by
          have h5 := writeQuadrants_events ext w e
          rw [h2] at h5
          exact h5 h4
        exact (leafWrite_flags e hleaf).1
  · intro w tr0 tr1 tr2 f tr3 h0 h1 h2 h3
    rw [writeEDS_proofs_error ext eds w tr0 tr1 tr2 f tr3 h0 h1 h2 h3]

/-- Witness for C7: the first-phase case instantiated on the empty square,
showing the `ErrEmptySquare` base preserved under the phase annotation. -/
theorem phase_error_wrapping_check :
    initializeWriter extW edsEmpty =
      (.error (.errored ⟨[], errEmptySquare⟩), [.extractShares]) ∧
    WriteEDS extW edsEmpty =
      (.error (wrapFailure msgInitFail (.errored ⟨[], errEmptySquare⟩)), [.extractShares]) :=
  ⟨rfl,
   ((phase_error_wrapping extW edsEmpty).2.1 (.errored ⟨[], errEmptySquare⟩)
     [.extractShares] rfl).1⟩

theorem cidsOfRoots_length : ∀ (l : List (List ℕ)) (c : List (List ℕ)),
    cidsOfRoots l = .ok c → c.length = l.length := by
  intro l
  induction l with
  | nil =>
    intro c h
    injection h with h'
    rw [← h']
  | cons r rs ih =>
    intro c h
    rw [cidsOfRoots] at h
    rcases hr : cidFromNamespacedSha256 r with e | c0
    · rw [hr] at h
      exact Except.noConfusion h
    · rw [hr] at h
      rcases hrec : cidsOfRoots rs with w | cs
      · rw [hrec] at h
        exact Except.noConfusion h
      · rw [hrec] at h
        injection h with h'
        rw [← h', List.length_cons, List.length_cons, ih cs hrec]

theorem cidsOfRoots_append (a b : List (List ℕ)) :
    ∀ c : List (List ℕ), cidsOfRoots (a ++ b) = .ok c →
      ∃ ca cb, cidsOfRoots a = .ok ca ∧ cidsOfRoots b = .ok cb ∧ c = ca ++ cb := by
  induction a with
  | nil =>
    intro c h
    exact ⟨[], c, rfl, h, rfl⟩
  | cons r rs ih =>
    intro c h
    rw [List.cons_append, cidsOfRoots] at h
    rcases hr : cidFromNamespacedSha256 r with e | c0
    · rw [hr] at h
      exact Except.noConfusion h
    · rw [hr] at h
      rcases hrec : cidsOfRoots (rs ++ b) with w | cs
      · rw [hrec] at h
        exact Except.noConfusion h
      · rw [hrec] at h
        injection h with hc
        obtain ⟨ca, cb, h1, h2, h3⟩ := ih cs hrec
        subst h3
        refine ⟨c0 :: ca, cb, ?_, h2, ?_⟩
        · rw [cidsOfRoots, hr, h1]
        · rw [← hc]
          rfl

theorem header_first_aux (cids : List (List ℕ)) (rest : List Event)
    (hrest : ∀ e ∈ rest, e.isHeaderWrite = false) (n : ℕ) (e : Event)
    (hn : (initTrace ++ (Event.headerWrite 1 cids :: rest))[n]? = some e)
    (hh : e.isHeaderWrite = true) :
    e = Event.headerWrite 1 cids ∧
    ∀ m e', m < n → (initTrace ++ (Event.headerWrite 1 cids :: rest))[m]? = some e' →
      e'.isSinkWrite = false := by
  rcases getElem?_append_cases _ _ n e hn with ⟨_, h1⟩ | ⟨hge, h1⟩
  · rw [(initTrace_flags e (List.getElem?_mem h1)).2.2.2] at hh
    exact Bool.noConfusion hh
  · have hlen4 : initTrace.length = 4 := rfl
    rcases hsub : n - initTrace.length with _ | l
    · rw [hsub, List.getElem?_cons_zero] at h1
      have he : e = Event.headerWrite 1 cids := by
        injection h1 with h2
        exact h2.symm
      refine ⟨he, ?_⟩
      intro m e' hm hm'
      have hmlt : m < initTrace.length := by omega
      rw [List.getElem?_append_left hmlt] at hm'
      exact (initTrace_flags e' (List.getElem?_mem hm')).1
    · rw [hsub, List.getElem?_cons_succ] at h1
      rw [hrest e (List.getElem?_mem h1)] at hh
      exact Bool.noConfusion hh

/-- Claim C3: for a reconstructed square of original width `k ≥ 1` (its
root lists have length `2k` each, per the matrix interface contract), the
header holds exactly `4k` root identifiers: the CIDs of the `2k` row roots
in index order followed by the CIDs of the `2k` column roots in index
order; the header record declares version 1, is the first record written to
the sink, and is the only header record of the call — no root is added,
removed or reordered afterwards. -/
theorem writeHeader_roots (ext : Externals) (eds : ExtendedDataSquare) (k : ℕ)
    (w : WritingSession) (tr0 : List Event) (cids : List (List ℕ))
    (hinit : initializeWriter ext eds = (.ok w, tr0)) (_hk : 1 ≤ k)
    (hrow : w.eds.rowRoots.length = 2 * k) (hcol : w.eds.colRoots.length = 2 * k)
    (hcids : rootsToCids w.eds = .ok cids) :
    cids.length = 4 * k ∧
    (∃ rowCids colCids, cidsOfRoots w.eds.rowRoots = .ok rowCids ∧
      cidsOfRoots w.eds.colRoots = .ok colCids ∧ cids = rowCids ++ colCids ∧
      rowCids.length = 2 * k ∧ colCids.length = 2 * k) ∧
    (ext.sinkWriteOk (.headerWrite 1 cids) = true →
      Event.headerWrite 1 cids ∈ (WriteEDS ext eds).2) ∧
    (∀ (n : ℕ) (e : Event), (WriteEDS ext eds).2[n]? = some e → e.isHeaderWrite = true →
      e = .headerWrite 1 cids ∧
      ∀ (m : ℕ) (e' : Event), m < n → (WriteEDS ext eds).2[m]? = some e' →
        e'.isSinkWrite = false) := by
  rw [rootsToCids] at hcids
  have hlen := cidsOfRoots_length _ _ hcids
  rw [List.length_append, hrow, hcol] at hlen
  obtain ⟨rowCids, colCids, hca, hcb, hcat⟩ := cidsOfRoots_append _ _ _ hcids
  have hrowlen := cidsOfRoots_length _ _ hca
  have hcollen := cidsOfRoots_length _ _ hcb
  rw [hrow] at hrowlen
  rw [hcol] at hcollen
  have htr0 := initializeWriter_ok_trace ext eds w tr0 hinit
  subst htr0
  have hhp : writeHeaderPhase ext w =
      (if ext.sinkWriteOk (.headerWrite 1 cids) then
        ((.ok (), [.headerWrite 1 cids]) : Except Failure Unit × List Event)
       else (.error (.errored ⟨[], ioWriteError⟩), [])) := by
    simp only [writeHeaderPhase, rootsToCids, hcids]
  refine ⟨by omega, ⟨rowCids, colCids, hca, hcb, hcat, hrowlen, hcollen⟩, ?_, ?_⟩
  · intro htrue
    have hhp2 : writeHeaderPhase ext w = (.ok (), [.headerWrite 1 cids]) := by
      rw [hhp, if_pos htrue]
    rcases hq : writeQuadrants ext w with ⟨rq, tr2⟩
    rcases rq with f2 | u2
    · rw [writeEDS_shares_error ext eds w initTrace [.headerWrite 1 cids] f2 tr2 hinit hhp2 hq]
      exact List.mem_append.mpr (Or.inr (List.mem_append.mpr (Or.inl (List.mem_singleton.mpr rfl))))
    · cases u2
      rcases hp : writeProofs ext w with ⟨rp, tr3⟩
      rcases rp with f3 | u3
      · rw [writeEDS_proofs_error ext eds w initTrace [.headerWrite 1 cids] tr2 f3 tr3 hinit hhp2 hq hp]
        exact List.mem_append.mpr (Or.inr (List.mem_append.mpr (Or.inl (List.mem_singleton.mpr rfl))))
      · cases u3
        rw [writeEDS_ok ext eds w initTrace [.headerWrite 1 cids] tr2 tr3 hinit hhp2 hq hp]
        exact List.mem_append.mpr (Or.inr (List.mem_append.mpr (Or.inl (List.mem_singleton.mpr rfl))))
  · intro n e hn hh
    rcases hsink : ext.sinkWriteOk (Event.headerWrite 1 cids) with _ | _
    · have hhp2 : writeHeaderPhase ext w = (.error (.errored ⟨[], ioWriteError⟩), []) := by
        rw [hhp, hsink]
        simp
      rw [writeEDS_header_error ext eds w initTrace _ [] hinit hhp2] at hn
      rcases getElem?_append_cases initTrace [] n e hn with ⟨_, h1⟩ | ⟨_, h1⟩
      · rw [(initTrace_flags e (List.getElem?_mem h1)).2.2.2] at hh
        exact Bool.noConfusion hh
      · exact Option.noConfusion h1
    · have hhp2 : writeHeaderPhase ext w = (.ok (), [.headerWrite 1 cids]) := by
        rw [hhp, if_pos hsink]
      rcases hq : writeQuadrants ext w with ⟨rq, tr2⟩
      have htr2 : ∀ e' ∈ tr2, e'.isLeafWrite = true := by
        intro e' h1
        have h2 := writeQuadrants_events ext w e'
        rw [hq] at h2
        exact h2 h1
      rcases rq with f2 | u2
      · rw [writeEDS_shares_error ext eds w initTrace [.headerWrite 1 cids] f2 tr2 hinit hhp2 hq,
          List.singleton_append] at hn ⊢
        exact header_first_aux cids tr2
          (fun e' he' => (leafWrite_flags e' (htr2 e' he')).2) n e hn hh
      · cases u2
        rcases hp : writeProofs ext w with ⟨rp, tr3⟩
        have htr3 : ∀ e' ∈ tr3, e'.isProofPhase = true := by
          intro e' h1
          have h2 := writeProofs_events ext w e'
          rw [hp] at h2
          exact h2 h1
        have hrest : ∀ e' ∈ tr2 ++ tr3, e'.isHeaderWrite = false := by
          intro e' he'
          rcases List.mem_append.mp he' with h | h
          · exact (leafWrite_flags e' (htr2 e' h)).2
          · exact (proofPhase_flags e' (htr3 e' h)).2
        rcases rp with f3 | u3
        · rw [writeEDS_proofs_error ext eds w initTrace [.headerWrite 1 cids] tr2 f3 tr3
            hinit hhp2 hq hp, List.singleton_append] at hn ⊢
          exact header_first_aux cids (tr2 ++ tr3) hrest n e hn hh
        · cases u3
          rw [writeEDS_ok ext eds w initTrace [.headerWrite 1 cids] tr2 tr3 hinit hhp2 hq hp,
            List.singleton_append] at hn ⊢
          exact header_first_aux cids (tr2 ++ tr3) hrest n e hn hh

/-- Witness for C3: the concrete square `edsW` with `k = 1`, whose header
holds the four CIDs of its two row and two column roots. -/
theorem writeHeader_roots_check :
    initializeWriter extW edsW = (.ok ⟨edsW, [(keyW, nodeW)]⟩, initTrace) ∧
    rootsToCids edsW = .ok (List.replicate 4 (cidMarker ++ rootW)) ∧
    (List.replicate 4 (cidMarker ++ rootW)).length = 4 * 1 :=
  ⟨rfl, rfl,
   (writeHeader_roots extW edsW 1 ⟨edsW, [(keyW, nodeW)]⟩ initTrace
      (List.replicate 4 (cidMarker ++ rootW)) rfl (Nat.le_refl 1) rfl rfl rfl).1⟩

/-- Claim C6: for `N = (2k)²` total shares and the pipeline's ods width
(`⌊√N⌋ / 2 = k`), the inner-node batch size handed to the cache-staging
layer equals `2N − 4k`. -/
theorem innerNodeBatchSize_formula (k n : ℕ) (h : n = (2 * k) * (2 * k)) :
    innerNodeBatchSize n (Nat.sqrt n / 2) = 2 * n - 4 * k := by
  subst h
  rw [innerNodeBatchSize, Nat.sqrt_eq, Nat.mul_div_cancel_left k (by norm_num)]
  rw [Nat.mul_comm ((2 * k) * (2 * k)) 2, Nat.mul_comm k 4]

/-- Witness for C6: `k = 2`, `N = 16`, batch size `24 = 2·16 − 4·2`. -/
theorem innerNodeBatchSize_formula_check :
    16 = (2 * 2) * (2 * 2) ∧
    innerNodeBatchSize 16 (Nat.sqrt 16 / 2) = 2 * 16 - 4 * 2 :=
  ⟨by norm_num, innerNodeBatchSize_formula 2 16 (by norm_num)⟩

/-- Claim C8: the caller's matrix is read-only to the pipeline.  The whole
call depends on the caller's square only through the extracted private
copy — two squares with identical extraction (whatever their root lists)
produce identical results and traces — and the one append into a
share-derived slice, quadrant-0 tagging `append(share[:8], share...)`,
never writes in place: a fresh slice of capacity `len` cannot hold `len`
more bytes after the first 8, so Go reallocates. -/
theorem caller_matrix_readonly :
    (∀ ext eds1 eds2, extractEDS eds1 = extractEDS eds2 →
      WriteEDS ext eds1 = WriteEDS ext eds2) ∧
    (∀ n : ℕ, goAppendInPlace 8 n n = false) := by
  constructor
  · intro ext eds1 eds2 h
    simp only [WriteEDS, initializeWriter, h]
  · intro n
    simp only [goAppendInPlace, decide_eq_false_iff_not]
    omega

/-- Witness for C8: `edsW` and `edsB` share cells but have different root
lists; the pipeline cannot tell them apart, and the quadrant-0 append on an
8-byte share of capacity 8 reallocates. -/
theorem caller_matrix_readonly_check :
    extractEDS edsW = extractEDS edsB ∧
    WriteEDS extW edsW = WriteEDS extW edsB ∧
    goAppendInPlace 8 8 8 = false :=
  ⟨rfl, caller_matrix_readonly.1 extW edsW edsB rfl, caller_matrix_readonly.2 8⟩

theorem isFloat64_natCast (n : ℕ) (h : n < 2 ^ 53) : isFloat64 (n : ℚ) := by
  refine ⟨(n : ℤ), 0, by simpa using h, by norm_num, by norm_num, ?_⟩
  push_cast
  ring

theorem roundsTo_exact (x f : ℚ) (hx : isFloat64 x) (h : RoundsTo (x : ℝ) f) : f = x := by
  have hle := h.2 x hx
  rw [sub_self, abs_zero] at hle
  have h0 : |(x : ℝ) - (f : ℝ)| = 0 := le_antisymm hle (abs_nonneg _)
  have h1 : (x : ℝ) - (f : ℝ) = 0 := abs_eq_zero.mp h0
  have h2 : (f : ℝ) = (x : ℝ) := by linarith
  exact_mod_cast h2

/-- Claim C10: for every share count `(2k)²` with `k ≥ 1` that is exactly
representable in a binary64 float, the width computation
`int(math.Sqrt(float64(shareCount)) / 2)` — a correctly rounded square
root (`RoundsTo`), a correctly rounded division by two, and a truncating
conversion (`goTrunc`) — returns exactly `k`. -/
theorem odsWidth_float_exact (k : ℕ) (s d : ℚ) (hk : 1 ≤ k)
    (h53 : (2 * k) * (2 * k) < 2 ^ 53)
    (hs : RoundsTo (Real.sqrt (((2 * k) * (2 * k) : ℕ) : ℝ)) s)
    (hd : RoundsTo ((s : ℝ) / 2) d) :
    goTrunc d = (k : ℤ) := by
  have h2k : 2 * k < 2 ^ 53 := by
    have hle : 2 * k ≤ (2 * k) * (2 * k) := Nat.le_mul_of_pos_right (2 * k) (by omega)
    omega
  have hkk : k < 2 ^ 53 := by omega
  have hsqrt : Real.sqrt (((2 * k) * (2 * k) : ℕ) : ℝ) = (((2 * k : ℕ) : ℚ) : ℝ) := by
    push_cast
    rw [show (2 : ℝ) * k * (2 * k) = (2 * k) ^ 2 by ring, Real.sqrt_sq (by positivity)]
  rw [hsqrt] at hs
  have hs2 : s = ((2 * k : ℕ) : ℚ) :=
    roundsTo_exact ((2 * k : ℕ) : ℚ) s (isFloat64_natCast (2 * k) h2k) hs
  have hdiv : (s : ℝ) / 2 = (((k : ℕ) : ℚ) : ℝ) := by
    rw [hs2]
    push_cast
    ring
  rw [hdiv] at hd
  have hd2 : d = ((k : ℕ) : ℚ) :=
    roundsTo_exact ((k : ℕ) : ℚ) d (isFloat64_natCast k hkk) hd
  rw [hd2, goTrunc, Rat.num_natCast, Rat.den_natCast]
  norm_num

/-- Witness for C10: `k = 1`, share count 4: `math.Sqrt` returns exactly 2,
the division returns exactly 1, and the conversion yields 1. -/
theorem odsWidth_float_exact_check :
    (2 * 1) * (2 * 1) < 2 ^ 53 ∧
    RoundsTo (Real.sqrt (((2 * 1) * (2 * 1) : ℕ) : ℝ)) 2 ∧
    RoundsTo (((2 : ℚ) : ℝ) / 2) 1 ∧
    goTrunc 1 = ((1 : ℕ) : ℤ) := by
  have hsq : Real.sqrt (((2 * 1) * (2 * 1) : ℕ) : ℝ) = ((2 : ℚ) : ℝ) := by
    push_cast
    rw [show (4 : ℝ) = 2 ^ 2 by norm_num, Real.sqrt_sq (by norm_num)]
  have hf2 : isFloat64 (2 : ℚ) := ⟨2, 0, by norm_num, by norm_num, by norm_num, by norm_num⟩
  have hf1 : isFloat64 (1 : ℚ) := ⟨1, 0, by norm_num, by norm_num, by norm_num, by norm_num⟩
  have hs : RoundsTo (Real.sqrt (((2 * 1) * (2 * 1) : ℕ) : ℝ)) 2 := by
    refine ⟨hf2, ?_⟩
    intro g _
    rw [hsq, sub_self, abs_zero]
    exact abs_nonneg _
  have hd : RoundsTo (((2 : ℚ) : ℝ) / 2) 1 := by
    refine ⟨hf1, ?_⟩
    intro g _
    rw [show ((2 : ℚ) : ℝ) / 2 = ((1 : ℚ) : ℝ) by norm_num, sub_self, abs_zero]
    exact abs_nonneg _
  exact ⟨by norm_num, hs, hd,
    odsWidth_float_exact 1 2 1 (Nat.le_refl 1) (by norm_num) hs hd⟩

end EdsCar
